import Mathlib

/-!
Verification development for the facenet attendance backend
(`src/facenet/app.py`, `src/facenet/datastore.py`).

The Python core is shallowly embedded:

* floats are modelled as rationals (`ℚ`);
* the JSON embeddings store `data/embeddings.json` is an insertion-ordered
  association list, mirroring a Python `dict`;
* `np.linalg.norm` values are tracked through their squares: every comparison
  made by the code (`dist < min_dist`, `dist < 1.0`) is between non-negative
  reals, and `x < y ↔ x^2 < y^2` there, so the scan over squared distances is
  an exact simulation of the scan over distances, with the threshold `1.0`
  mapped to `1.0^2 = 1`;
* a raised Python exception (caught by the generic handler and turned into an
  HTTP 500) is modelled as `Option.none`.
-/

namespace Facenet

/-- An embedding vector: an ordered list of numeric components. -/
abbrev EmbeddingVector := List ℚ

/-- The embeddings store (`data/embeddings.json`): an insertion-ordered
mapping from identity name to the list of that identity's embedding vectors,
modelled as an association list exactly as a Python `dict` iterates. -/
abbrev Store := List (String × List EmbeddingVector)

/-- Python dict assignment `db[name] = v`: if the key is present its value is
replaced in place (keeping its position in iteration order), otherwise the
binding is appended at the end. -/
def dictSet (db : Store) (name : String) (v : List EmbeddingVector) : Store :=
  match db with
  | [] => [(name, v)]
  | (k, w) :: rest =>
      if k = name then (k, v) :: rest else (k, w) :: dictSet rest name v

/-- Python dict lookup `db[name]` (as an option). -/
def dictGet (db : Store) (name : String) : Option (List EmbeddingVector) :=
  match db with
  | [] => none
  | (k, w) :: rest => if k = name then some w else dictGet rest name

/-- Core of the `/enroll` endpoint (`app.py` lines 90–92): the store is loaded,
`db[name] = embeddings` is executed, and the store is saved.  There is no
validation of `name`, of the vectors, or of their dimensions, and the
assignment is a plain dict assignment. -/
def enroll (db : Store) (name : String) (embeddings : List EmbeddingVector) :
    Store :=
  dictSet db name embeddings

/-- 1-D numpy subtraction `emb - np.array(stored_emb)` with broadcasting:
defined when the lengths agree, or when either operand has length 1 (numpy
broadcasts a singleton); any other length mismatch raises, modelled as
`none`. -/
def npSub (a b : List ℚ) : Option (List ℚ) :=
  if a.length = b.length then some (List.zipWith (fun x y => x - y) a b)
  else if a.length = 1 then some (b.map (fun y => a.headI - y))
  else if b.length = 1 then some (a.map (fun x => x - b.headI))
  else none

/-- Squared euclidean norm of a vector: the square of `np.linalg.norm`. -/
def normSq (v : List ℚ) : ℚ := (v.map (fun x => x ^ 2)).sum

/-- Squared distance `np.linalg.norm(emb - np.array(stored_emb)) ** 2`, or
`none` when the subtraction raises. -/
def distSq? (a b : List ℚ) : Option ℚ := (npSub a b).map normSq

/-- Squared distance for equal-length vectors (the total special case of
`distSq?`). -/
def distSq (a b : List ℚ) : ℚ :=
  normSq (List.zipWith (fun x y => x - y) a b)

/-- All `(name, stored_emb)` pairs of the store in iteration order: the two
nested loops of `recognize` (`for name, emb_list in db.items(): for stored_emb
in emb_list:`) visit exactly this flattened list in this order. -/
def allPairs (db : Store) : List (String × EmbeddingVector) :=
  db.flatMap (fun e => e.2.map (fun v => (e.1, v)))

/-- The inner scan of `recognize` (`app.py` lines 124–129), over the flattened
pair list, threading the running `(match_name, min_dist)` state.  Distances
are tracked squared (see the file header); the update fires exactly on
`dist < min_dist and dist < 1.0`.  A raised distance computation aborts the
whole request (`none`). -/
def scanPairs (emb : EmbeddingVector) :
    List (String × EmbeddingVector) → String × ℚ → Option (String × ℚ)
  | [], acc => some acc
  | p :: rest, acc =>
      match distSq? emb p.2 with
      | none => none
      | some d =>
          scanPairs emb rest (if d < acc.2 ∧ d < 1 then (p.1, d) else acc)

/-- Per-face core of the `/recognize` endpoint (`app.py` lines 121–129):
`match_name` starts as `"Unknown"` and `min_dist` as the threshold `1.0`
(squared: `1`), then every stored vector is scanned. -/
def recognize (emb : EmbeddingVector) (db : Store) : Option (String × ℚ) :=
  scanPairs emb (allPairs db) ("Unknown", 1)

/-- One functional step of the scan, for stores whose distance computations
all succeed. -/
def step (emb : EmbeddingVector) (acc : String × ℚ)
    (p : String × EmbeddingVector) : String × ℚ :=
  if distSq emb p.2 < acc.2 ∧ distSq emb p.2 < 1 then (p.1, distSq emb p.2)
  else acc

/-- Every stored vector of the store has the query's dimension. -/
def dimsOk (emb : EmbeddingVector) (db : Store) : Prop :=
  ∀ p ∈ allPairs db, (p.2 : List ℚ).length = emb.length

/-- The squared-distance value corresponding to an euclidean distance of
`0.999999` (the spec's near-threshold probe). -/
def nearMissSq : ℚ := (999999 / 1000000) ^ 2

/-- A bcrypt hash, modelled abstractly: `bcrypt.hashpw` embeds the salt in the
digest and is injective per `(password, salt)` pair, and `bcrypt.checkpw`
recovers exactly whether the candidate equals the hashed password.  The model
records the two inputs; no plaintext comparison happens in the code, only
hash recomputation, which this interface captures. -/
structure BcryptHash where
  pw : String
  salt : ℕ
deriving DecidableEq

/-- `bcrypt.hashpw(password, salt)`. -/
def hashpw (password : String) (salt : ℕ) : BcryptHash := ⟨password, salt⟩

/-- `bcrypt.checkpw(candidate, stored)`: true exactly when the candidate is
the password the stored hash was produced from. -/
def checkpw (candidate : String) (stored : BcryptHash) : Bool :=
  candidate = stored.pw

/-- The `/api/verify` endpoint core (`app.py` lines 138–147): reads the stored
hash and checks the submitted password against it. -/
def verify_password (stored : BcryptHash) (input_pw : String) : Bool :=
  checkpw input_pw stored

/-- The `/api/update-password` endpoint core (`app.py` lines 149–161): if the
old password checks against the stored hash, a fresh salted hash of the new
password is stored (`freshSalt` models the salt drawn by `bcrypt.gensalt()`);
otherwise nothing is written.  Returns (success, resulting stored hash). -/
def update_password (stored : BcryptHash) (old_pw new_pw : String)
    (freshSalt : ℕ) : Bool × BcryptHash :=
  if checkpw old_pw stored then (true, hashpw new_pw freshSalt)
  else (false, stored)

/-- The SQLite `faces` table of `datastore.py`: rows in insertion order, each
holding a name and an embedding blob (the float components are modelled as
rationals).  The autoincrement id is the row's position. -/
abbrev FacesTable := List (String × List ℚ)

/-- `FaceEmbeddingSystem.save_face` (`datastore.py` lines 172–199): executes
`INSERT INTO faces (name, embedding) VALUES (?, ?)` and commits, returning
`True`.  (The `except` branch only fires on a database failure, which the
table model does not exhibit.) -/
def save_face (db : FacesTable) (name : String) (embedding : List ℚ) :
    Bool × FacesTable :=
  (true, db ++ [(name, embedding)])

/-- `FaceEmbeddingSystem.get_face_count` (`datastore.py` lines 231–234):
`SELECT COUNT(*) FROM faces`. -/
def get_face_count (db : FacesTable) : ℕ := db.length

/-!
### Persistence model (`load_embeddings` / `save_embeddings`)

`save_embeddings` runs `json.dump(data, f)` on `open(DATA_PATH, "w")` and
`load_embeddings` runs `json.load(f)`.  The durable bytes are modelled as
`List Char`.  The store serialized here carries integer-valued embedding
components (`ℤ`): Python's float `repr`/parse round-trip at the numeric
leaves is exact by design and is not re-modelled.  `json.dump` is modelled
with its default separators (`", "` and `": "`); names are restricted to
printable ASCII without a double quote or backslash, the fragment on which
`json.dump` performs no escaping.  The `json.load` model is a
recursive-descent reader of exactly that emitted format, rejecting trailing
garbage as `json.load` does.
-/

/-- A store as serialized to `data/embeddings.json`, with integer-valued
embedding components. -/
abbrev StoreZ := List (String × List (List ℤ))

/-- The little-endian base-10 digits of a natural number. -/
def natDigitsLE (n : ℕ) : List ℕ :=
  if h : n < 10 then [n] else (n % 10) :: natDigitsLE (n / 10)
decreasing_by omega

/-- Recombine little-endian base-10 digits. -/
def ofDigitsLE : List ℕ → ℕ
  | [] => 0
  | d :: ds => d + 10 * ofDigitsLE ds

/-- The character of a decimal digit. -/
def digitChar (d : ℕ) : Char := Char.ofNat (48 + d)

/-- The decimal digit of a character. -/
def charDigit (c : Char) : ℕ := c.toNat - 48

/-- Decimal text of a natural number, as `json.dump` writes it. -/
def serNat (n : ℕ) : List Char := (natDigitsLE n).reverse.map digitChar

/-- Decimal text of an integer, as `json.dump` writes it. -/
def serInt (i : ℤ) : List Char :=
  if i < 0 then Char.ofNat 45 :: serNat i.natAbs else serNat i.toNat

/-- Items of a nonempty JSON number array, `", "`-separated, with the closing
bracket. -/
def serIntItems : List ℤ → List Char
  | [] => [']']
  | [x] => serInt x ++ [']']
  | x :: xs => serInt x ++ ',' :: ' ' :: serIntItems xs

/-- A JSON array of numbers, as `json.dump` writes it. -/
def serIntList (xs : List ℤ) : List Char :=
  match xs with
  | [] => ['[', ']']
  | _ => '[' :: serIntItems xs

/-- Items of a nonempty JSON array of number arrays. -/
def serVecItems : List (List ℤ) → List Char
  | [] => [']']
  | [v] => serIntList v ++ [']']
  | v :: vs => serIntList v ++ ',' :: ' ' :: serVecItems vs

/-- A JSON array of number arrays, as `json.dump` writes it. -/
def serVecList (vs : List (List ℤ)) : List Char :=
  match vs with
  | [] => ['[', ']']
  | _ => '[' :: serVecItems vs

/-- One JSON object entry `"name": value`. -/
def serEntry (e : String × List (List ℤ)) : List Char :=
  Char.ofNat 34 :: e.1.data ++ Char.ofNat 34 :: ':' :: ' ' :: serVecList e.2

/-- Entries of a nonempty JSON object, `", "`-separated, with the closing
brace. -/
def serEntryItems : StoreZ → List Char
  | [] => [Char.ofNat 125]
  | [e] => serEntry e ++ [Char.ofNat 125]
  | e :: es => serEntry e ++ ',' :: ' ' :: serEntryItems es

/-- `save_embeddings(data)` (`app.py` lines 64–66): the bytes `json.dump`
writes to `data/embeddings.json` for the given mapping. -/
def save_embeddings (m : StoreZ) : List Char :=
  match m with
  | [] => [Char.ofNat 123, Char.ofNat 125]
  | _ => Char.ofNat 123 :: serEntryItems m

/-- Consume decimal digit characters. -/
def takeDigits : List Char → List Char × List Char
  | [] => ([], [])
  | c :: cs =>
      if c.isDigit then
        match takeDigits cs with
        | (ds, r) => (c :: ds, r)
      else ([], c :: cs)

/-- There is no decimal digit at the head of the input (numbers in the
emitted format are always followed by `", "` or `"]"`). -/
def noLeadDigit : List Char → Prop
  | [] => True
  | c :: _ => c.isDigit = false

/-- Read a natural number (at least one digit). -/
def parseNat (s : List Char) : Option (ℕ × List Char) :=
  if (takeDigits s).1 = [] then none
  else some (ofDigitsLE (((takeDigits s).1.map charDigit).reverse),
             (takeDigits s).2)

/-- Read an integer (optional leading minus sign). -/
def parseInt (s : List Char) : Option (ℤ × List Char) :=
  match s with
  | [] => none
  | c :: cs =>
      if c = Char.ofNat 45 then
        (parseNat cs).map (fun p => (-(p.1 : ℤ), p.2))
      else (parseNat (c :: cs)).map (fun p => ((p.1 : ℤ), p.2))

/-- Read the items of a nonempty number array up to its closing bracket.  The
fuel bounds the number of loop iterations; callers supply at least the length
of the remaining input. -/
def parseIntItems : ℕ → List Char → Option (List ℤ × List Char)
  | 0, _ => none
  | fuel + 1, s =>
      match parseInt s with
      | none => none
      | some (i, r) =>
          match r with
          | ']' :: r2 => some ([i], r2)
          | ',' :: ' ' :: r2 =>
              match parseIntItems fuel r2 with
              | none => none
              | some (l, r3) => some (i :: l, r3)
          | _ => none

/-- Read a JSON array of numbers. -/
def parseIntList (fuel : ℕ) (s : List Char) : Option (List ℤ × List Char) :=
  match s with
  | [] => none
  | c :: cs =>
      if c = '[' then
        match cs with
        | [] => none
        | c2 :: cs2 => if c2 = ']' then some ([], cs2) else parseIntItems fuel cs
      else none

/-- Read the items of a nonempty array of number arrays. -/
def parseVecItems : ℕ → List Char → Option (List (List ℤ) × List Char)
  | 0, _ => none
  | fuel + 1, s =>
      match parseIntList (fuel + 1) s with
      | none => none
      | some (v, r) =>
          match r with
          | ']' :: r2 => some ([v], r2)
          | ',' :: ' ' :: r2 =>
              match parseVecItems fuel r2 with
              | none => none
              | some (l, r3) => some (v :: l, r3)
          | _ => none

/-- Read a JSON array of number arrays. -/
def parseVecList (fuel : ℕ) (s : List Char) : Option (List (List ℤ) × List Char) :=
  match s with
  | [] => none
  | c :: cs =>
      if c = '[' then
        match cs with
        | [] => none
        | c2 :: cs2 => if c2 = ']' then some ([], cs2) else parseVecItems fuel cs
      else none

/-- Consume a string body up to its closing double quote. -/
def takeUntilQuote : List Char → Option (List Char × List Char)
  | [] => none
  | c :: cs =>
      if c = Char.ofNat 34 then some ([], cs)
      else
        match takeUntilQuote cs with
        | none => none
        | some (k, r) => some (c :: k, r)

/-- Read the entries of a nonempty JSON object up to its closing brace. -/
def parseEntryItems : ℕ → List Char → Option (StoreZ × List Char)
  | 0, _ => none
  | fuel + 1, s =>
      match s with
      | [] => none
      | c :: cs =>
          if c = Char.ofNat 34 then
            match takeUntilQuote cs with
            | none => none
            | some (k, r) =>
                match r with
                | ':' :: ' ' :: r2 =>
                    match parseVecList (fuel + 1) r2 with
                    | none => none
                    | some (v, r3) =>
                        match r3 with
                        | ',' :: ' ' :: r4 =>
                            match parseEntryItems fuel r4 with
                            | none => none
                            | some (l, r5) => some ((String.mk k, v) :: l, r5)
                        | c3 :: r4 =>
                            if c3 = Char.ofNat 125 then
                              some ([(String.mk k, v)], r4)
                            else none
                        | [] => none
                | _ => none
          else none

/-- Read a JSON object in the emitted format; the entry loop's fuel is the
remaining input length, which bounds the entry count. -/
def parseStore (s : List Char) : Option (StoreZ × List Char) :=
  match s with
  | [] => none
  | c :: cs =>
      if c = Char.ofNat 123 then
        match cs with
        | [] => none
        | c2 :: cs2 =>
            if c2 = Char.ofNat 125 then some ([], cs2)
            else parseEntryItems cs.length cs
      else none

/-- `load_embeddings()` (`app.py` lines 60–62): `json.load` over the durable
bytes, failing (as `json.load` raises) on anything but a complete object with
nothing after it. -/
def load_embeddings (s : List Char) : Option StoreZ :=
  match parseStore s with
  | some (m, []) => some m
  | _ => none

/-- A name character that `json.dump` emits verbatim: printable ASCII other
than the double quote and the backslash. -/
def nameCharOk (c : Char) : Prop :=
  c ≠ Char.ofNat 34 ∧ c ≠ Char.ofNat 92 ∧ 32 ≤ c.toNat ∧ c.toNat ≤ 126

instance (c : Char) : Decidable (nameCharOk c) := by
  unfold nameCharOk
  infer_instance

/-- A name `json.dump` emits verbatim. -/
def nameOk (s : String) : Prop := ∀ c ∈ s.data, nameCharOk c

instance (s : String) : Decidable (nameOk s) := by
  unfold nameOk
  infer_instance

/-- Every name of the store is emitted verbatim by `json.dump`. -/
def storeOk (m : StoreZ) : Prop := ∀ e ∈ m, nameOk e.1

instance (m : StoreZ) : Decidable (storeOk m) := by
  unfold storeOk
  infer_instance

/-- Durable file contents observable if the process crashes while
`save_embeddings` runs: `open(DATA_PATH, "w")` truncates the file in place,
then the serialized bytes are written sequentially, so an interruption leaves
some (possibly empty) initial segment of the new content on disk. -/
def saveCrashStates (newContent : List Char) : List (List Char) :=
  (List.range (newContent.length + 1)).map (fun k => newContent.take k)

/-- A write is atomic with respect to partial writes when every
crash-observable durable state is the old content or the new content. -/
def atomicWrite (old newContent : List Char) : Prop :=
  ∀ s ∈ saveCrashStates newContent, s = old ∨ s = newContent

theorem distSq?_eq_some {a b : List ℚ} (h : b.length = a.length) :
    distSq? a b = some (distSq a b) := by
  simp [distSq?, npSub, h, distSq]

theorem scanPairs_eq_foldl (emb : EmbeddingVector)
    (ps : List (String × EmbeddingVector)) (acc : String × ℚ)
    (h : ∀ p ∈ ps, (p.2 : List ℚ).length = emb.length) :
    scanPairs emb ps acc = some (ps.foldl (step emb) acc) := by
  induction ps generalizing acc with
  | nil => rfl
  | cons p rest ih =>
      have hp : (p.2 : List ℚ).length = emb.length := h p (by simp)
      rw [scanPairs, distSq?_eq_some hp]
      simp only [List.foldl_cons]
      rw [ih _ (fun q hq => h q (by simp [hq]))]
      rfl

theorem recognize_eq_foldl (emb : EmbeddingVector) (db : Store)
    (h : dimsOk emb db) :
    recognize emb db =
      some ((allPairs db).foldl (step emb) ("Unknown", 1)) :=
  scanPairs_eq_foldl emb (allPairs db) _ h

/-- If no visited pair strictly improves the running minimum, the fold leaves
the state unchanged. -/
theorem foldl_step_no_improve (emb : EmbeddingVector)
    (ps : List (String × EmbeddingVector)) (acc : String × ℚ)
    (h : ∀ p ∈ ps, ¬ (distSq emb p.2 < acc.2 ∧ distSq emb p.2 < 1)) :
    ps.foldl (step emb) acc = acc := by
  induction ps with
  | nil => rfl
  | cons p rest ih =>
      have hp := h p (by simp)
      simp only [List.foldl_cons, step, if_neg hp]
      exact ih (fun q hq => h q (by simp [hq]))

/-- A strict lower bound `d` on the initial state and on every visited
distance is a strict lower bound on the final running minimum. -/
theorem foldl_step_lt (emb : EmbeddingVector) (d : ℚ)
    (ps : List (String × EmbeddingVector)) (acc : String × ℚ)
    (hacc : d < acc.2) (h : ∀ p ∈ ps, d < distSq emb p.2) :
    d < (ps.foldl (step emb) acc).2 := by
  induction ps generalizing acc with
  | nil => exact hacc
  | cons p rest ih =>
      simp only [List.foldl_cons, step]
      by_cases hc : distSq emb p.2 < acc.2 ∧ distSq emb p.2 < 1
      · rw [if_pos hc]
        exact ih _ (h p (by simp)) (fun q hq => h q (by simp [hq]))
      · rw [if_neg hc]
        exact ih _ hacc (fun q hq => h q (by simp [hq]))

/-- Characterization of the scan on a well-dimensioned store: if the pair list
splits as `pre ++ (a, va) :: post` where `va` is at squared distance `d < 1`,
every earlier vector is strictly farther, and no vector is closer, then the
scan ends at `(a, d)`: the first vector attaining the minimum wins. -/
theorem recognize_first_min (emb : EmbeddingVector) (db : Store)
    (pre post : List (String × EmbeddingVector)) (a : String)
    (va : EmbeddingVector) (d : ℚ)
    (hdims : dimsOk emb db)
    (hsplit : allPairs db = pre ++ (a, va) :: post)
    (hd : distSq emb va = d) (hd1 : d < 1)
    (hpre : ∀ p ∈ pre, d < distSq emb p.2)
    (hpost : ∀ p ∈ post, d ≤ distSq emb p.2) :
    recognize emb db = some (a, d) := by
  rw [recognize_eq_foldl emb db hdims, hsplit, List.foldl_append]
  have hmid : d < ((List.foldl (step emb) ("Unknown", 1) pre)).2 :=
    foldl_step_lt emb d pre _ (by simpa using hd1) hpre
  simp only [List.foldl_cons, step, hd, if_pos (And.intro hmid hd1)]
  rw [foldl_step_no_improve]
  intro p hp
  exact fun hc => absurd hc.1 (not_lt.mpr (hpost p hp))

/-- If every stored vector is at squared distance at least 1 from the query,
the scan never fires and the sentinel state `("Unknown", 1)` survives. -/
theorem recognize_all_far (emb : EmbeddingVector) (db : Store)
    (hdims : dimsOk emb db)
    (hfar : ∀ p ∈ allPairs db, (1 : ℚ) ≤ distSq emb p.2) :
    recognize emb db = some ("Unknown", 1) := by
  rw [recognize_eq_foldl emb db hdims]
  rw [foldl_step_no_improve]
  intro p hp
  exact fun hc => absurd hc.2 (not_lt.mpr (hfar p hp))

theorem dictGet_dictSet (db : Store) (n : String) (v : List EmbeddingVector) :
    dictGet (dictSet db n v) n = some v := by
  induction db with
  | nil => simp [dictSet, dictGet]
  | cons e rest ih =>
      obtain ⟨k, w⟩ := e
      by_cases h : k = n
      · simp [dictSet, dictGet, h]
      · simp [dictSet, dictGet, h, ih]

theorem dictSet_of_fresh (db : Store) (n : String) (v : List EmbeddingVector)
    (h : ∀ p ∈ db, p.1 ≠ n) : dictSet db n v = db ++ [(n, v)] := by
  induction db with
  | nil => rfl
  | cons e rest ih =>
      have he : e.1 ≠ n := h e (by simp)
      obtain ⟨k, w⟩ := e
      simp only [dictSet, if_neg he, List.cons_append, List.cons.injEq, true_and]
      exact ih (fun p hp => h p (by simp [hp]))

theorem distSq?_eq_none {a b : List ℚ} (h1 : a.length ≠ b.length)
    (h2 : a.length ≠ 1) (h3 : b.length ≠ 1) : distSq? a b = none := by
  simp [distSq?, npSub, h1, h2, h3]

theorem scanPairs_none (emb : EmbeddingVector)
    (ps : List (String × EmbeddingVector)) (acc : String × ℚ)
    (h : ∃ p ∈ ps, distSq? emb p.2 = none) : scanPairs emb ps acc = none := by
  induction ps generalizing acc with
  | nil => simp at h
  | cons p rest ih =>
      obtain ⟨q, hq, hqn⟩ := h
      cases hd : distSq? emb p.2 with
      | none => rw [scanPairs, hd]
      | some d =>
          rw [scanPairs, hd]
          rcases List.mem_cons.mp hq with hqp | hqr
          · rw [hqp] at hqn
            rw [hqn] at hd
            cases hd
          · exact ih _ ⟨q, hqr, hqn⟩

/-- C1: repeated enrollment under one name does NOT accumulate: the dict
assignment `db[name] = embeddings` replaces the previous list, so after two
enrollments of "Alice" with one vector each, "Alice" owns only the second
vector, not both. -/
theorem c1_double_enroll_refuted :
    dictGet (enroll (enroll [] "Alice" [[1]]) "Alice" [[2]]) "Alice"
        = some [[2]]
    ∧ dictGet (enroll (enroll [] "Alice" [[1]]) "Alice" [[2]]) "Alice"
        ≠ some [[1], [2]] := by
  constructor
  · simp [enroll, dictSet, dictGet]
  · simp [enroll, dictSet, dictGet]

/-- C1 (amended): enrollment replaces, never appends — after any two
enrollments of the same name, the store maps that name to exactly the second
batch of vectors, whatever was stored before. -/
theorem c1_enroll_replaces (db : Store) (name : String)
    (v1 v2 : List EmbeddingVector) :
    dictGet (enroll (enroll db name v1) name v2) name = some v2 :=
  dictGet_dictSet _ name v2

/-- C2: no dimension guard exists.  A store fixed at dimension 1 accepts a
dimension-2 enrollment, changing the store instead of rejecting it. -/
theorem c2_dimension_guard_refuted :
    enroll [("Alice", [[0]])] "Bob" [[1, 2]]
        = [("Alice", [[0]]), ("Bob", [[1, 2]])]
    ∧ enroll [("Alice", [[0]])] "Bob" [[1, 2]] ≠ [("Alice", [[0]])] := by
  constructor
  · simp [enroll, dictSet]
  · simp [enroll, dictSet]

/-- C2 (amended): the code validates no dimensions.  Enrollment stores the
submitted vectors unconditionally (and a fresh name is appended, changing the
store); a recognition query whose dimension differs from a stored vector's
(with neither being numpy-broadcastable length 1) makes the distance
computation raise, which the generic handler turns into an HTTP 500 — there
is no `DimensionMismatch` failure anywhere. -/
theorem c2_no_dimension_guard :
    (∀ (db : Store) (name : String) (vs : List EmbeddingVector),
        dictGet (enroll db name vs) name = some vs)
    ∧ (∀ (db : Store) (name : String) (vs : List EmbeddingVector),
        (∀ p ∈ db, p.1 ≠ name) → enroll db name vs = db ++ [(name, vs)])
    ∧ (∀ (emb : EmbeddingVector) (db : Store),
        (∃ p ∈ allPairs db, emb.length ≠ (p.2 : List ℚ).length
            ∧ emb.length ≠ 1 ∧ (p.2 : List ℚ).length ≠ 1) →
        recognize emb db = none) := by
  refine ⟨fun db name vs => dictGet_dictSet db name vs,
          fun db name vs h => dictSet_of_fresh db name vs h,
          fun emb db h => ?_⟩
  obtain ⟨p, hp, h1, h2, h3⟩ := h
  exact scanPairs_none emb _ _ ⟨p, hp, distSq?_eq_none h1 h2 h3⟩

theorem c2_no_dimension_guard_w :
    enroll [("Alice", [[0]])] "Bob" [[1, 2]]
        = [("Alice", [[0]])] ++ [("Bob", [[1, 2]])]
    ∧ recognize [0, 0] [("Alice", [[3, 4, 5]])] = none := by
  constructor
  · exact c2_no_dimension_guard.2.1 [("Alice", [[0]])] "Bob" [[1, 2]]
      (by simp)
  · exact c2_no_dimension_guard.2.2 [0, 0] [("Alice", [[3, 4, 5]])]
      ⟨("Alice", [3, 4, 5]), by simp [allPairs], by simp, by simp, by simp⟩

/-- C3: when every stored vector is rejected by the threshold, the reported
distance is the sentinel `1.0`, NOT the best (minimum) distance found: with
one stored vector at euclidean distance 3 (squared 9) the scan returns
`("Unknown", 1)` rather than `("Unknown", 9)` (or distance 3). -/
theorem c3_sentinel_refuted :
    recognize [0] [("Alice", [[3]])] = some ("Unknown", 1)
    ∧ ((1 : ℚ) ≠ 9 ∧ (1 : ℚ) ≠ 3) := by
  refine ⟨?_, by norm_num, by norm_num⟩
  rw [recognize]
  show scanPairs [0] [("Alice", [3])] ("Unknown", 1) = some ("Unknown", 1)
  rw [scanPairs]
  norm_num [distSq?, npSub, normSq]
  rw [scanPairs]

/-- C3 (amended): on a well-dimensioned store the scan returns the identity
owning the first vector attaining the minimal (squared) distance together
with that minimum whenever the minimum beats the threshold; but when every
stored vector is at squared distance ≥ 1 it returns `("Unknown", 1)` — the
sentinel threshold value, not the rejected best distance (which the HTTP
response does not carry at all). -/
theorem c3_recognize_result :
    (∀ (emb : EmbeddingVector) (db : Store)
        (pre post : List (String × EmbeddingVector)) (a : String)
        (va : EmbeddingVector) (d : ℚ),
        dimsOk emb db → allPairs db = pre ++ (a, va) :: post →
        distSq emb va = d → d < 1 →
        (∀ p ∈ pre, d < distSq emb p.2) →
        (∀ p ∈ post, d ≤ distSq emb p.2) →
        recognize emb db = some (a, d))
    ∧ (∀ (emb : EmbeddingVector) (db : Store), dimsOk emb db →
        (∀ p ∈ allPairs db, (1 : ℚ) ≤ distSq emb p.2) →
        recognize emb db = some ("Unknown", 1)) :=
  ⟨recognize_first_min, recognize_all_far⟩

theorem c3_recognize_result_w :
    recognize [0] [("Alice", [[1/2]])] = some ("Alice", 1/4)
    ∧ recognize [0] [("Alice", [[3]])] = some ("Unknown", 1) := by
  constructor
  · exact c3_recognize_result.1 [0] [("Alice", [[1/2]])] [] [] "Alice" [1/2]
      (1/4) (by simp [dimsOk, allPairs]) (by simp [allPairs])
      (by norm_num [distSq, normSq]) (by norm_num) (by simp) (by simp)
  · exact c3_recognize_result.2 [0] [("Alice", [[3]])]
      (by simp [dimsOk, allPairs])
      (by intro p hp; simp [allPairs] at hp; norm_num [hp, distSq, normSq])

/-- C4: threshold acceptance is strict.  A query whose stored vectors all lie
at squared distance ≥ 1, one of them exactly at 1 (euclidean distance exactly
1.0), yields `"Unknown"`; a query whose first-minimal stored vector lies at
squared distance `(0.999999)^2` yields the identity owning it. -/
theorem c4_threshold_strict :
    (∀ (emb : EmbeddingVector) (db : Store), dimsOk emb db →
        (∃ p ∈ allPairs db, distSq emb p.2 = 1) →
        (∀ p ∈ allPairs db, (1 : ℚ) ≤ distSq emb p.2) →
        recognize emb db = some ("Unknown", 1))
    ∧ (∀ (emb : EmbeddingVector) (db : Store)
        (pre post : List (String × EmbeddingVector)) (a : String)
        (va : EmbeddingVector),
        dimsOk emb db → allPairs db = pre ++ (a, va) :: post →
        distSq emb va = nearMissSq →
        (∀ p ∈ pre, nearMissSq < distSq emb p.2) →
        (∀ p ∈ post, nearMissSq ≤ distSq emb p.2) →
        recognize emb db = some (a, nearMissSq)) := by
  constructor
  · exact fun emb db hdims _ hfar => recognize_all_far emb db hdims hfar
  · intro emb db pre post a va hdims hsplit hva hpre hpost
    exact recognize_first_min emb db pre post a va nearMissSq hdims hsplit
      hva (by norm_num [nearMissSq]) hpre hpost

theorem c4_threshold_strict_w :
    recognize [0] [("Alice", [[1]])] = some ("Unknown", 1)
    ∧ recognize [0] [("Alice", [[999999/1000000]])]
        = some ("Alice", nearMissSq) := by
  constructor
  · exact c4_threshold_strict.1 [0] [("Alice", [[1]])]
      (by simp [dimsOk, allPairs])
      ⟨("Alice", [1]), by simp [allPairs], by norm_num [distSq, normSq]⟩
      (by intro p hp; simp [allPairs] at hp; norm_num [hp, distSq, normSq])
  · exact c4_threshold_strict.2 [0] [("Alice", [[999999/1000000]])] [] []
      "Alice" [999999/1000000] (by simp [dimsOk, allPairs])
      (by simp [allPairs]) (by norm_num [distSq, normSq, nearMissSq])
      (by simp) (by simp)

/-- C5: ties are broken deterministically by iteration (insertion) order:
with a second identity holding a vector at the same minimal squared distance
`d < 1` later in the flattened scan order, the identity whose tying vector
comes first is returned, because the running minimum only updates on strict
improvement. -/
theorem c5_tie_first_seen (emb : EmbeddingVector) (db : Store)
    (pre post : List (String × EmbeddingVector)) (a b : String)
    (va vb : EmbeddingVector) (d : ℚ)
    (hdims : dimsOk emb db)
    (hsplit : allPairs db = pre ++ (a, va) :: post)
    (hva : distSq emb va = d) (hd1 : d < 1)
    (_hb : (b, vb) ∈ post) (_hab : b ≠ a) (_hvb : distSq emb vb = d)
    (hpre : ∀ p ∈ pre, d < distSq emb p.2)
    (hpost : ∀ p ∈ post, d ≤ distSq emb p.2) :
    recognize emb db = some (a, d) :=
  recognize_first_min emb db pre post a va d hdims hsplit hva hd1 hpre hpost

theorem c5_tie_first_seen_w :
    recognize [0] [("Alice", [[1/2]]), ("Bob", [[-1/2]])]
        = some ("Alice", 1/4) := by
  exact c5_tie_first_seen [0] [("Alice", [[1/2]]), ("Bob", [[-1/2]])]
    [] [("Bob", [-1/2])] "Alice" "Bob" [1/2] [-1/2] (1/4)
    (by simp [dimsOk, allPairs]) (by simp [allPairs])
    (by norm_num [distSq, normSq]) (by norm_num) (by simp) (by decide)
    (by norm_num [distSq, normSq]) (by simp)
    (by intro p hp; simp at hp; norm_num [hp, distSq, normSq])

/-- C9: recognition against an empty store visits no vector, so the running
state stays at its initialization and the scan yields the identity
`"Unknown"` with the sentinel (squared) distance `1.0`. -/
theorem c9_empty_store_unknown (emb : EmbeddingVector) :
    recognize emb [] = some ("Unknown", 1) := rfl

/-- C6: rotation with `new = old` refutes the claim's "Verify(old)
subsequently fails": rotating the active secret `"admin123"` to the same
string succeeds, and verifying the old secret afterwards still succeeds. -/
theorem c6_rotate_refuted :
    (update_password (hashpw "admin123" 0) "admin123" "admin123" 1).1 = true
    ∧ verify_password
        (update_password (hashpw "admin123" 0) "admin123" "admin123" 1).2
        "admin123" = true := by
  constructor <;> rfl

/-- C6 (amended): rotation succeeds exactly when the old password verifies;
a failed rotation writes nothing, so the previously active secret still
verifies; a successful rotation makes the new password verify, and makes the
old one fail provided it differs from the new one (rotating a secret to
itself keeps it verifiable). -/
theorem c6_rotate_atomicity (stored : BcryptHash) (old_pw new_pw : String)
    (freshSalt : ℕ) :
    ((update_password stored old_pw new_pw freshSalt).1 = true
        ↔ verify_password stored old_pw = true)
    ∧ ((update_password stored old_pw new_pw freshSalt).1 = false
        → (update_password stored old_pw new_pw freshSalt).2 = stored)
    ∧ (∀ (p : String) (s0 : ℕ), stored = hashpw p s0
        → (update_password stored old_pw new_pw freshSalt).1 = false
        → verify_password
            (update_password stored old_pw new_pw freshSalt).2 p = true)
    ∧ (verify_password stored old_pw = true
        → verify_password
            (update_password stored old_pw new_pw freshSalt).2 new_pw = true)
    ∧ (verify_password stored old_pw = true → old_pw ≠ new_pw
        → verify_password
            (update_password stored old_pw new_pw freshSalt).2 old_pw
              = false) := by
  by_cases h : old_pw = stored.pw
  · refine ⟨?_, ?_, ?_, ?_, ?_⟩
    · simp [update_password, checkpw, verify_password, h]
    · simp [update_password, checkpw, h]
    · simp [update_password, checkpw, h]
    · simp [update_password, checkpw, verify_password, hashpw, h]
    · intro _ hne
      simp [update_password, checkpw, verify_password, hashpw, h]
      rw [h] at hne
      exact hne
  · refine ⟨?_, ?_, ?_, ?_, ?_⟩
    · simp [update_password, checkpw, verify_password, h]
    · simp [update_password, checkpw, h]
    · intro p s0 hs0 _
      subst hs0
      simp [hashpw] at h
      simp [update_password, checkpw, verify_password, hashpw, h]
    · intro hv
      simp [verify_password, checkpw, h] at hv
    · intro hv
      simp [verify_password, checkpw, h] at hv

theorem c6_rotate_atomicity_w :
    ((update_password (hashpw "secret" 0) "wrong" "new" 1).1 = false
        ∧ verify_password
            (update_password (hashpw "secret" 0) "wrong" "new" 1).2
            "secret" = true)
    ∧ ((update_password (hashpw "secret" 0) "secret" "new" 1).1 = true
        ∧ verify_password
            (update_password (hashpw "secret" 0) "secret" "new" 1).2
            "new" = true
        ∧ verify_password
            (update_password (hashpw "secret" 0) "secret" "new" 1).2
            "secret" = false) := by
  refine ⟨⟨?_, ?_⟩, ?_, ?_, ?_⟩
  · have h := (c6_rotate_atomicity (hashpw "secret" 0) "wrong" "new" 1).1
    rw [Bool.eq_false_iff]
    intro hc
    have := h.mp hc
    exact absurd this (by decide)
  · exact (c6_rotate_atomicity (hashpw "secret" 0) "wrong" "new" 1).2.2.1
      "secret" 0 rfl (by decide)
  · exact (c6_rotate_atomicity (hashpw "secret" 0) "secret" "new" 1).1.mpr
      (by decide)
  · exact (c6_rotate_atomicity (hashpw "secret" 0) "secret" "new" 1).2.2.2.1
      (by decide)
  · exact (c6_rotate_atomicity (hashpw "secret" 0) "secret" "new" 1).2.2.2.2
      (by decide) (by decide)

theorem save_embeddings_ne_nil (m : StoreZ) : save_embeddings m ≠ [] := by
  cases m <;> simp [save_embeddings]

theorem nil_mem_saveCrashStates (s : List Char) : [] ∈ saveCrashStates s := by
  unfold saveCrashStates
  exact List.mem_map.mpr ⟨0, List.mem_range.mpr (by omega), by simp⟩

/-- C8: `save_embeddings` is NOT atomic with respect to partial writes:
`open(DATA_PATH, "w")` truncates `data/embeddings.json` in place before
`json.dump` writes, so a crash just after opening leaves an empty file —
neither the old nor the new durable content. -/
theorem c8_atomic_save_refuted :
    ¬ atomicWrite (save_embeddings [("A", [[1]])])
        (save_embeddings [("A", [[1], [2]])]) := by
  intro h
  have h0 := h [] (nil_mem_saveCrashStates _)
  rcases h0 with h0 | h0 <;>
    exact save_embeddings_ne_nil _ h0.symm

/-- C8 (amended): for any two mapping contents, the in-place truncating write
of `save_embeddings` has a crash point (right after truncation) at which the
durable file is empty, which is neither the previously persisted serialized
store nor the new one: a crash mid-write corrupts the prior state. -/
theorem c8_save_not_atomic (m mNew : StoreZ) :
    ¬ atomicWrite (save_embeddings m) (save_embeddings mNew) := by
  intro h
  have h0 := h [] (nil_mem_saveCrashStates _)
  rcases h0 with h0 | h0 <;>
    exact save_embeddings_ne_nil _ h0.symm

theorem c8_save_not_atomic_w :
    ¬ atomicWrite (save_embeddings []) (save_embeddings [("A", [])]) :=
  c8_save_not_atomic [] [("A", [])]

/-- C10: `save_face` reports success and inserts exactly one row at the end
of the `faces` table: the count grows by one, every previously stored row
(name and blob) is untouched, and across any sequence of further `save_face`
calls the count never decreases. -/
theorem c10_save_face_appends (db : FacesTable) (name : String)
    (embedding : List ℚ) :
    (save_face db name embedding).1 = true
    ∧ get_face_count (save_face db name embedding).2 = get_face_count db + 1
    ∧ List.take (get_face_count db) (save_face db name embedding).2 = db
    ∧ ∀ ops : List (String × List ℚ),
        get_face_count db
          ≤ get_face_count
              (ops.foldl (fun d p => (save_face d p.1 p.2).2) db) := by
  refine ⟨rfl, by simp [save_face, get_face_count], ?_, ?_⟩
  · simp [save_face, get_face_count]
  · intro ops
    induction ops generalizing db with
    | nil => simp
    | cons op rest ih =>
        calc get_face_count db
            ≤ get_face_count (save_face db op.1 op.2).2 := by
              simp [save_face, get_face_count]
          _ ≤ _ := ih _

theorem natDigitsLE_lt10 (n : ℕ) : ∀ d ∈ natDigitsLE n, d < 10 := by
  induction n using Nat.strong_induction_on with
  | _ n ih =>
      rw [natDigitsLE]
      split
      · rename_i h
        intro d hd
        simp only [List.mem_singleton] at hd
        omega
      · rename_i h
        intro d hd
        rcases List.mem_cons.mp hd with rfl | hd'
        · omega
        · exact ih (n / 10) (by omega) d hd'

theorem natDigitsLE_ne_nil (n : ℕ) : natDigitsLE n ≠ [] := by
  rw [natDigitsLE]
  split <;> simp

theorem ofDigitsLE_natDigitsLE (n : ℕ) : ofDigitsLE (natDigitsLE n) = n := by
  induction n using Nat.strong_induction_on with
  | _ n ih =>
      rw [natDigitsLE]
      split
      · simp [ofDigitsLE]
      · rename_i h
        rw [ofDigitsLE, ih (n / 10) (by omega)]
        omega

theorem digitChar_facts (d : ℕ) (h : d < 10) :
    (digitChar d).isDigit = true ∧ charDigit (digitChar d) = d
    ∧ digitChar d ≠ Char.ofNat 45 ∧ digitChar d ≠ ']' := by
  interval_cases d <;> exact ⟨by decide, by decide, by decide, by decide⟩

theorem mem_serNat (n : ℕ) (c : Char) (hc : c ∈ serNat n) :
    ∃ d, d < 10 ∧ c = digitChar d := by
  rw [serNat] at hc
  obtain ⟨d, hd, rfl⟩ := List.mem_map.mp hc
  exact ⟨d, natDigitsLE_lt10 n d (List.mem_reverse.mp hd), rfl⟩

theorem serNat_ne_nil (n : ℕ) : serNat n ≠ [] := by
  rw [serNat]
  simp [natDigitsLE_ne_nil n]

theorem map_id_of_mem {α : Type} (l : List α) (f : α → α)
    (h : ∀ x ∈ l, f x = x) : l.map f = l := by
  induction l with
  | nil => rfl
  | cons a as ih => simp [h a (by simp), ih (fun x hx => h x (by simp [hx]))]

theorem serNat_val (n : ℕ) :
    ofDigitsLE (((serNat n).map charDigit).reverse) = n := by
  rw [serNat, List.map_map]
  have hmap : ((natDigitsLE n).reverse).map (charDigit ∘ digitChar)
      = (natDigitsLE n).reverse :=
    map_id_of_mem _ _ (fun x hx =>
      (digitChar_facts x (natDigitsLE_lt10 n x (List.mem_reverse.mp hx))).2.1)
  rw [hmap, List.reverse_reverse]
  exact ofDigitsLE_natDigitsLE n

theorem takeDigits_append (ds rest : List Char)
    (h1 : ∀ c ∈ ds, c.isDigit = true) (h2 : noLeadDigit rest) :
    takeDigits (ds ++ rest) = (ds, rest) := by
  induction ds with
  | nil =>
      cases rest with
      | nil => rfl
      | cons c cs =>
          have hc : c.isDigit = false := h2
          simp [takeDigits, hc]
  | cons c cs ih =>
      have hc : c.isDigit = true := h1 c (by simp)
      simp [takeDigits, hc, ih (fun x hx => h1 x (by simp [hx]))]

theorem parseNat_ser (n : ℕ) (rest : List Char) (h : noLeadDigit rest) :
    parseNat (serNat n ++ rest) = some (n, rest) := by
  have hd : ∀ c ∈ serNat n, c.isDigit = true := fun c hc => by
    obtain ⟨d, hd10, rfl⟩ := mem_serNat n c hc
    exact (digitChar_facts d hd10).1
  rw [parseNat, takeDigits_append _ _ hd h]
  rw [if_neg (serNat_ne_nil n), serNat_val]

theorem parseInt_ser (i : ℤ) (rest : List Char) (h : noLeadDigit rest) :
    parseInt (serInt i ++ rest) = some (i, rest) := by
  by_cases hi : i < 0
  · rw [serInt, if_pos hi]
    show parseInt (Char.ofNat 45 :: (serNat i.natAbs ++ rest)) = _
    rw [parseInt, if_pos rfl, parseNat_ser _ _ h]
    simp only [Option.map_some']
    have : -(i.natAbs : ℤ) = i := by omega
    rw [this]
  · rw [serInt, if_neg hi]
    rcases hs : serNat i.toNat with _ | ⟨c, cs⟩
    · exact absurd hs (serNat_ne_nil _)
    · have hcmem : c ∈ serNat i.toNat := by rw [hs]; exact List.mem_cons_self c cs
      obtain ⟨d, hd10, hcd⟩ := mem_serNat _ c hcmem
      have hcm : c ≠ Char.ofNat 45 := hcd ▸ (digitChar_facts d hd10).2.2.1
      show parseInt (c :: (cs ++ rest)) = some (i, rest)
      rw [parseInt, if_neg hcm]
      have hps : parseNat (c :: (cs ++ rest)) = some (i.toNat, rest) := by
        have : c :: (cs ++ rest) = serNat i.toNat ++ rest := by rw [hs]; rfl
        rw [this]
        exact parseNat_ser _ _ h
      rw [hps]
      simp only [Option.map_some']
      have : (i.toNat : ℤ) = i := by omega
      rw [this]

theorem serInt_ne_nil (i : ℤ) : serInt i ≠ [] := by
  rw [serInt]
  split
  · simp
  · exact serNat_ne_nil _

theorem serInt_length_pos (i : ℤ) : 0 < (serInt i).length :=
  List.length_pos.mpr (serInt_ne_nil i)

theorem serIntItems_ne_nil (xs : List ℤ) : serIntItems xs ≠ [] := by
  rcases xs with _ | ⟨x, _ | ⟨y, ys⟩⟩ <;> simp [serIntItems]

theorem noLeadDigit_rbrack (rest : List Char) : noLeadDigit (']' :: rest) := by
  simp [noLeadDigit]

theorem noLeadDigit_comma (rest : List Char) : noLeadDigit (',' :: rest) := by
  simp [noLeadDigit]

theorem parseIntItems_ser (xs : List ℤ) : ∀ (fuel : ℕ) (rest : List Char),
    xs ≠ [] → (serIntItems xs).length ≤ fuel →
    parseIntItems fuel (serIntItems xs ++ rest) = some (xs, rest) := by
  induction xs with
  | nil => intro fuel rest h _; exact absurd rfl h
  | cons x xs ih =>
      intro fuel rest _ hfuel
      cases xs with
      | nil =>
          cases fuel with
          | zero =>
              exfalso
              exact serIntItems_ne_nil [x]
                (List.eq_nil_of_length_eq_zero (by omega))
          | succ f =>
              rw [serIntItems] at hfuel ⊢
              rw [List.append_assoc]
              show parseIntItems (f + 1) (serInt x ++ (']' :: rest)) = _
              rw [parseIntItems,
                  parseInt_ser x (']' :: rest) (noLeadDigit_rbrack rest)]
              rfl
      | cons y ys =>
          cases fuel with
          | zero =>
              exfalso
              exact serIntItems_ne_nil (x :: y :: ys)
                (List.eq_nil_of_length_eq_zero (by omega))
          | succ f =>
              rw [serIntItems] at hfuel ⊢
              rw [List.append_assoc]
              show parseIntItems (f + 1)
                (serInt x ++ (',' :: ' ' :: (serIntItems (y :: ys) ++ rest)))
                  = _
              rw [parseIntItems,
                  parseInt_ser x _ (noLeadDigit_comma _)]
              have hf : (serIntItems (y :: ys)).length ≤ f := by
                have := serInt_length_pos x
                simp only [List.length_append, List.length_cons] at hfuel
                omega
              show (match parseIntItems f (serIntItems (y :: ys) ++ rest) with
                    | none => none
                    | some (l, r3) => some (x :: l, r3))
                  = some (x :: y :: ys, rest)
              rw [ih f rest (List.cons_ne_nil y ys) hf]
              all_goals exact fun hcc => List.noConfusion hcc

theorem serInt_head_ne_rbrack (i : ℤ) (c : Char) (cs : List Char)
    (h : serInt i = c :: cs) : c ≠ ']' := by
  rw [serInt] at h
  split at h
  · have hc : c = Char.ofNat 45 := (List.cons.injEq _ _ _ _ ▸ h).1.symm
    rw [hc]
    decide
  · have hcmem : c ∈ serNat i.toNat := by rw [h]; exact List.mem_cons_self c cs
    obtain ⟨d, hd10, rfl⟩ := mem_serNat _ c hcmem
    exact (digitChar_facts d hd10).2.2.2

theorem serIntItems_head_ne_rbrack (x : ℤ) (xs : List ℤ) (c : Char)
    (cs : List Char) (h : serIntItems (x :: xs) = c :: cs) : c ≠ ']' := by
  rcases ht : serInt x with _ | ⟨c0, cs0⟩
  · exact absurd ht (serInt_ne_nil x)
  · have hc : c = c0 := by
      cases xs with
      | nil =>
          rw [serIntItems, ht] at h
          exact ((List.cons.injEq _ _ _ _ ▸ h).1).symm
      | cons y ys =>
          rw [serIntItems, ht] at h
          · exact ((List.cons.injEq _ _ _ _ ▸ h).1).symm
          · exact fun hcc => List.noConfusion hcc
    rw [hc]
    exact serInt_head_ne_rbrack x c0 cs0 ht

theorem serIntList_length (xs : List ℤ) :
    (serIntList xs).length = (serIntItems xs).length + 1 := by
  rcases xs with _ | ⟨x, xs⟩ <;> simp [serIntList, serIntItems]

theorem parseIntList_ser (xs : List ℤ) (fuel : ℕ) (rest : List Char)
    (hfuel : (serIntList xs).length ≤ fuel + 1) :
    parseIntList fuel (serIntList xs ++ rest) = some (xs, rest) := by
  cases xs with
  | nil =>
      show parseIntList fuel ('[' :: ']' :: rest) = some ([], rest)
      rw [parseIntList]
      simp
  | cons x xs =>
      rcases hs : serIntItems (x :: xs) with _ | ⟨c, cs⟩
      · exact absurd hs (serIntItems_ne_nil _)
      · have hc : c ≠ ']' := serIntItems_head_ne_rbrack x xs c cs hs
        have hlen : (serIntItems (x :: xs)).length ≤ fuel := by
          rw [serIntList_length] at hfuel
          omega
        have hform : serIntList (x :: xs) ++ rest
            = '[' :: c :: (cs ++ rest) := by
          rw [serIntList]
          · rw [hs]
            rfl
          · exact fun hcc => List.noConfusion hcc
        rw [hform, parseIntList, if_pos rfl, if_neg hc]
        have hback : c :: (cs ++ rest) = serIntItems (x :: xs) ++ rest := by
          rw [hs]
          rfl
        rw [hback]
        exact parseIntItems_ser (x :: xs) fuel rest
          (List.cons_ne_nil x xs) hlen

theorem serIntList_head (v : List ℤ) : ∃ t, serIntList v = '[' :: t := by
  rcases v with _ | ⟨x, xs⟩
  · exact ⟨[']'], rfl⟩
  · exact ⟨serIntItems (x :: xs), rfl⟩

theorem serVecItems_ne_nil (vs : List (List ℤ)) : serVecItems vs ≠ [] := by
  rcases vs with _ | ⟨v, _ | ⟨w, ws⟩⟩ <;> simp [serVecItems]

theorem serVecItems_head_ne_rbrack (v : List ℤ) (vs : List (List ℤ))
    (c : Char) (cs : List Char) (h : serVecItems (v :: vs) = c :: cs) :
    c ≠ ']' := by
  obtain ⟨t, ht⟩ := serIntList_head v
  have hc : c = '[' := by
    cases vs with
    | nil =>
        rw [serVecItems, ht] at h
        exact ((List.cons.injEq _ _ _ _ ▸ h).1).symm
    | cons w ws =>
        rw [serVecItems, ht] at h
        · exact ((List.cons.injEq _ _ _ _ ▸ h).1).symm
        · exact fun hcc => List.noConfusion hcc
  rw [hc]
  decide

theorem parseVecItems_ser (vs : List (List ℤ)) :
    ∀ (fuel : ℕ) (rest : List Char), vs ≠ [] →
    (serVecItems vs).length ≤ fuel →
    parseVecItems fuel (serVecItems vs ++ rest) = some (vs, rest) := by
  induction vs with
  | nil => intro fuel rest h _; exact absurd rfl h
  | cons v vs ih =>
      intro fuel rest _ hfuel
      cases vs with
      | nil =>
          cases fuel with
          | zero =>
              exfalso
              exact serVecItems_ne_nil [v]
                (List.eq_nil_of_length_eq_zero (by omega))
          | succ f =>
              rw [serVecItems] at hfuel ⊢
              rw [List.append_assoc]
              show parseVecItems (f + 1) (serIntList v ++ (']' :: rest)) = _
              rw [parseVecItems,
                  parseIntList_ser v (f + 1) (']' :: rest)
                    (by simp only [List.length_append, List.length_cons]
                          at hfuel
                        omega)]
              rfl
      | cons w ws =>
          cases fuel with
          | zero =>
              exfalso
              exact serVecItems_ne_nil (v :: w :: ws)
                (List.eq_nil_of_length_eq_zero (by omega))
          | succ f =>
              rw [serVecItems] at hfuel ⊢
              rw [List.append_assoc]
              show parseVecItems (f + 1)
                (serIntList v ++ (',' :: ' ' :: (serVecItems (w :: ws) ++ rest)))
                  = _
              have hvlen : 1 ≤ (serIntList v).length := by
                rw [serIntList_length]
                omega
              rw [parseVecItems,
                  parseIntList_ser v (f + 1) _
                    (by simp only [List.length_append, List.length_cons]
                          at hfuel
                        omega)]
              have hf : (serVecItems (w :: ws)).length ≤ f := by
                simp only [List.length_append, List.length_cons] at hfuel
                omega
              show (match parseVecItems f (serVecItems (w :: ws) ++ rest) with
                    | none => none
                    | some (l, r3) => some (v :: l, r3))
                  = some (v :: w :: ws, rest)
              rw [ih f rest (List.cons_ne_nil w ws) hf]
              all_goals exact fun hcc => List.noConfusion hcc

theorem serVecList_length (vs : List (List ℤ)) :
    (serVecList vs).length = (serVecItems vs).length + 1 := by
  rcases vs with _ | ⟨v, vs⟩ <;> simp [serVecList, serVecItems]

theorem parseVecList_ser (vs : List (List ℤ)) (fuel : ℕ) (rest : List Char)
    (hfuel : (serVecList vs).length ≤ fuel + 1) :
    parseVecList fuel (serVecList vs ++ rest) = some (vs, rest) := by
  cases vs with
  | nil =>
      show parseVecList fuel ('[' :: ']' :: rest) = some ([], rest)
      rw [parseVecList]
      simp
  | cons v vs =>
      rcases hs : serVecItems (v :: vs) with _ | ⟨c, cs⟩
      · exact absurd hs (serVecItems_ne_nil _)
      · have hc : c ≠ ']' := serVecItems_head_ne_rbrack v vs c cs hs
        have hlen : (serVecItems (v :: vs)).length ≤ fuel := by
          rw [serVecList_length] at hfuel
          omega
        have hform : serVecList (v :: vs) ++ rest
            = '[' :: c :: (cs ++ rest) := by
          rw [serVecList]
          · rw [hs]
            rfl
          · exact fun hcc => List.noConfusion hcc
        rw [hform, parseVecList, if_pos rfl, if_neg hc]
        have hback : c :: (cs ++ rest) = serVecItems (v :: vs) ++ rest := by
          rw [hs]
          rfl
        rw [hback]
        exact parseVecItems_ser (v :: vs) fuel rest
          (List.cons_ne_nil v vs) hlen

theorem takeUntilQuote_ser (k rest : List Char)
    (h : ∀ c ∈ k, c ≠ Char.ofNat 34) :
    takeUntilQuote (k ++ Char.ofNat 34 :: rest) = some (k, rest) := by
  induction k with
  | nil =>
      show takeUntilQuote (Char.ofNat 34 :: rest) = some ([], rest)
      rw [takeUntilQuote, if_pos rfl]
  | cons c cs ih =>
      have hc : c ≠ Char.ofNat 34 := h c (by simp)
      show takeUntilQuote (c :: (cs ++ Char.ofNat 34 :: rest))
          = some (c :: cs, rest)
      rw [takeUntilQuote, if_neg hc, ih (fun x hx => h x (by simp [hx]))]

theorem serEntryItems_ne_nil (m : StoreZ) : serEntryItems m ≠ [] := by
  rcases m with _ | ⟨e, _ | ⟨e2, es⟩⟩ <;> simp [serEntryItems]

theorem serEntry_length (e : String × List (List ℤ)) :
    (serEntry e).length = e.1.data.length + (serVecList e.2).length + 4 := by
  simp [serEntry]
  omega

theorem serEntryItems_head (e : String × List (List ℤ)) (es : StoreZ) :
    ∃ t, serEntryItems (e :: es) = Char.ofNat 34 :: t := by
  cases es with
  | nil =>
      refine ⟨(e.1.data ++ Char.ofNat 34 :: ':' :: ' ' :: serVecList e.2)
        ++ [Char.ofNat 125], ?_⟩
      rw [serEntryItems, serEntry]
      rfl
  | cons e2 es2 =>
      refine ⟨(e.1.data ++ Char.ofNat 34 :: ':' :: ' ' :: serVecList e.2)
        ++ ',' :: ' ' :: serEntryItems (e2 :: es2), ?_⟩
      rw [serEntryItems, serEntry]
      · rfl
      · exact fun hcc => List.noConfusion hcc

theorem serEntryItems_pair (e e2 : String × List (List ℤ)) (es2 : StoreZ) :
    serEntryItems (e :: e2 :: es2)
      = serEntry e ++ ',' :: ' ' :: serEntryItems (e2 :: es2) := rfl

theorem save_embeddings_cons (e : String × List (List ℤ)) (es : StoreZ) :
    save_embeddings (e :: es) = Char.ofNat 123 :: serEntryItems (e :: es) :=
  rfl

theorem parseEntryItems_ser (m : StoreZ) : ∀ (fuel : ℕ) (rest : List Char),
    m ≠ [] → storeOk m → (serEntryItems m).length ≤ fuel →
    parseEntryItems fuel (serEntryItems m ++ rest) = some (m, rest) := by
  induction m with
  | nil => intro fuel rest h _ _; exact absurd rfl h
  | cons e es ih =>
      intro fuel rest _ hok hfuel
      have hname : ∀ c ∈ e.1.data, c ≠ Char.ofNat 34 := fun c hc =>
        (hok e (by simp) c hc).1
      cases es with
      | nil =>
          cases fuel with
          | zero =>
              exfalso
              exact serEntryItems_ne_nil [e]
                (List.eq_nil_of_length_eq_zero (by omega))
          | succ f =>
              rw [serEntryItems] at hfuel ⊢
              rw [serEntry] at hfuel ⊢
              simp only [List.cons_append, List.append_assoc,
                List.singleton_append]
              rw [parseEntryItems, if_pos rfl]
              rw [takeUntilQuote_ser e.1.data _ hname]
              have hvl : (serVecList e.2).length ≤ (f + 1) + 1 := by
                simp only [List.length_append, List.length_cons] at hfuel
                omega
              show (match parseVecList (f + 1)
                      (serVecList e.2 ++ (Char.ofNat 125 :: rest)) with
                    | none => none
                    | some (v, r3) =>
                        match r3 with
                        | ',' :: ' ' :: r4 =>
                            match parseEntryItems f r4 with
                            | none => none
                            | some (l, r5) => some ((String.mk e.1.data, v) :: l, r5)
                        | c3 :: r4 =>
                            if c3 = Char.ofNat 125 then
                              some ([(String.mk e.1.data, v)], r4)
                            else none
                        | [] => none)
                  = some ([e], rest)
              rw [parseVecList_ser e.2 (f + 1) _ hvl]
              show (if Char.ofNat 125 = Char.ofNat 125 then
                      some ([(String.mk e.1.data, e.2)], rest)
                    else none)
                  = some ([e], rest)
              rw [if_pos rfl]
      | cons e2 es2 =>
          cases fuel with
          | zero =>
              exfalso
              exact serEntryItems_ne_nil (e :: e2 :: es2)
                (List.eq_nil_of_length_eq_zero (by omega))
          | succ f =>
              rw [serEntryItems_pair] at hfuel ⊢
              rw [serEntry] at hfuel ⊢
              simp only [List.cons_append, List.append_assoc,
                List.singleton_append]
              rw [parseEntryItems, if_pos rfl]
              rw [takeUntilQuote_ser e.1.data _ hname]
              have hvl : (serVecList e.2).length ≤ (f + 1) + 1 := by
                simp only [List.length_append, List.length_cons] at hfuel
                omega
              show (match parseVecList (f + 1)
                      (serVecList e.2 ++
                        (',' :: ' ' :: (serEntryItems (e2 :: es2) ++ rest))) with
                    | none => none
                    | some (v, r3) =>
                        match r3 with
                        | ',' :: ' ' :: r4 =>
                            match parseEntryItems f r4 with
                            | none => none
                            | some (l, r5) =>
                                some ((String.mk e.1.data, v) :: l, r5)
                        | c3 :: r4 =>
                            if c3 = Char.ofNat 125 then
                              some ([(String.mk e.1.data, v)], r4)
                            else none
                        | [] => none)
                  = some (e :: e2 :: es2, rest)
              rw [parseVecList_ser e.2 (f + 1) _ hvl]
              have hf : (serEntryItems (e2 :: es2)).length ≤ f := by
                simp only [List.length_append, List.length_cons] at hfuel
                omega
              show (match parseEntryItems f (serEntryItems (e2 :: es2) ++ rest) with
                    | none => none
                    | some (l, r5) => some ((String.mk e.1.data, e.2) :: l, r5))
                  = some (e :: e2 :: es2, rest)
              rw [ih f rest (List.cons_ne_nil e2 es2)
                  (fun x hx => hok x (by simp [hx])) hf]

theorem load_save (m : StoreZ) (hok : storeOk m) :
    load_embeddings (save_embeddings m) = some m := by
  cases m with
  | nil => rfl
  | cons e es =>
      rw [load_embeddings, save_embeddings_cons]
      obtain ⟨t, ht⟩ := serEntryItems_head e es
      have hp := parseEntryItems_ser (e :: es)
        ((serEntryItems (e :: es)).length) [] (List.cons_ne_nil e es) hok
        (le_refl _)
      rw [List.append_nil] at hp
      rw [ht]
      show (match parseEntryItems (Char.ofNat 34 :: t).length
              (Char.ofNat 34 :: t) with
            | some (m, []) => some m
            | _ => none)
          = some (e :: es)
      rw [← ht, hp]

/-- C7: the durable bytes written by `save_embeddings` (`json.dump`) parse
back by `load_embeddings` (`json.load`) to the same mapping, so saving the
loaded mapping rewrites exactly the same bytes: persistence round-trips. -/
theorem c7_save_load_roundtrip (b : List Char)
    (h : ∃ m : StoreZ, storeOk m ∧ b = save_embeddings m) :
    (load_embeddings b).map save_embeddings = some b := by
  obtain ⟨m, hok, rfl⟩ := h
  rw [load_save m hok, Option.map_some']

theorem c7_save_load_roundtrip_w :
    (load_embeddings (save_embeddings [("Alice", [[1, -23], [0]])])).map
        save_embeddings
      = some (save_embeddings [("Alice", [[1, -23], [0]])]) :=
  c7_save_load_roundtrip _ ⟨[("Alice", [[1, -23], [0]])], by decide, rfl⟩

end Facenet
